import Mathlib

/-!
Verification of the reacto reactive event runtime as exercised by the
msp430_timed_blink demo (src/examples/msp430_timed_blink/main.c).

The demo wires together: a fixed-capacity single-producer/single-consumer
event queue, a signal/slot dispatch mechanism, a deadline-ordered timed
event scheduler with wraparound-safe time comparison, and a polling main
loop with a fair scheduling strategy.  The runtime primitives themselves
(queue.h, timed_queue.h, main_loop.h) are external to the repository, so
they are modelled from the specification; the demo handlers
(button_stream_handler, delayed_handler, led_stream_handler,
single_pressed, double_pressed) are translated from main.c.
-/

namespace Reacto

/-! ## Event queue -/

/-- Modelled from the spec: the reacto Event Queue (queue.h, not in the
repository sources).  A fixed-capacity ring buffer of `cap` slots holding
typed event records, with a free-running producer index and consumer
index; slot addressing wraps modulo the capacity.  The storage array is
modelled as a function from slot index to record. -/
structure event_queue (α : Type) where
  cap : Nat
  storage : Nat → α
  prod : Nat
  cons : Nat

/-- Modelled from the spec: queue initialisation with capacity `n`; all
slots start holding the default record `d`, both indices at zero. -/
def queue_init (n : Nat) (d : α) : event_queue α :=
  ⟨n, fun _ => d, 0, 0⟩

/-- Modelled from the spec: `push` writes the value into the slot at the
producer index and then advances the producer index. -/
def queue_push (q : event_queue α) (v : α) : event_queue α :=
  { q with
      storage := fun j => if j = q.prod % q.cap then v else q.storage j
      prod := q.prod + 1 }

/-- Modelled from the spec: `peek` copies the oldest unread record into the
output without removing it and reports whether data was available; on an
empty queue (producer index = consumer index) the output argument is
returned unwritten together with a no-data flag. -/
def queue_peek (q : event_queue α) (out : α) : α × Bool :=
  if q.prod = q.cons then (out, false)
  else (q.storage (q.cons % q.cap), true)

/-- Modelled from the spec: consuming advances the consumer index past the
slot that was just read. -/
def queue_consume (q : event_queue α) : event_queue α :=
  { q with cons := q.cons + 1 }

/-- A whole sequence of `queue_push` calls. -/
def queue_push_all (q : event_queue α) (vs : List α) : event_queue α :=
  vs.foldl queue_push q

/-- Repeated peek/consume, `n` times, with peek default `d`. -/
def drainN (d : α) : Nat → event_queue α → List α
  | 0, _ => []
  | n + 1, q => (queue_peek q d).1 :: drainN d n (queue_consume q)

/-- Drain every unread record of the queue by repeated peek/consume. -/
def drainAll (q : event_queue α) (d : α) : List α :=
  drainN d (q.prod - q.cons) q

/-- The unread records of the queue, oldest first, read directly from the
ring storage. -/
def contents (q : event_queue α) : List α :=
  (List.range (q.prod - q.cons)).map (fun i => q.storage ((q.cons + i) % q.cap))

theorem queue_push_cap (q : event_queue α) (v : α) : (queue_push q v).cap = q.cap := rfl

theorem queue_push_prod (q : event_queue α) (v : α) :
    (queue_push q v).prod = q.prod + 1 := rfl

theorem queue_push_cons (q : event_queue α) (v : α) :
    (queue_push q v).cons = q.cons := rfl

/-- Pushing appends to the unread contents, provided the queue is not full. -/
theorem contents_queue_push (q : event_queue α) (v : α)
    (hc : q.cons ≤ q.prod) (hfull : q.prod - q.cons < q.cap) :
    contents (queue_push q v) = contents q ++ [v] := by
  unfold contents queue_push
  simp only
  have hsz : q.prod + 1 - q.cons = (q.prod - q.cons) + 1 := by omega
  rw [hsz, List.range_succ, List.map_append]
  congr 1
  · apply List.map_congr_left
    intro i hi
    rw [List.mem_range] at hi
    have hne : (q.cons + i) % q.cap ≠ q.prod % q.cap := by
      intro heq
      have hle : q.cons + i ≤ q.prod := by omega
      have hdvd : q.cap ∣ q.prod - (q.cons + i) :=
        (Nat.modEq_iff_dvd' hle).mp heq
      have hpos : 0 < q.prod - (q.cons + i) := by omega
      have := Nat.le_of_dvd hpos hdvd
      omega
    simp [hne]
  · simp only [List.map_cons, List.map_nil]
    have : q.cons + (q.prod - q.cons) = q.prod := by omega
    rw [this]
    simp

/-- Draining by repeated peek/consume reads exactly the unread contents. -/
theorem drainAll_eq_contents (q : event_queue α) (d : α) (hc : q.cons ≤ q.prod) :
    drainAll q d = contents q := by
  unfold drainAll
  generalize hn : q.prod - q.cons = n
  induction n generalizing q with
  | zero => simp [drainN, contents, hn]
  | succ n ih =>
    have hne : q.prod ≠ q.cons := by omega
    have hstep : (queue_consume q).prod - (queue_consume q).cons = n := by
      simp only [queue_consume]; omega
    have hc2 : (queue_consume q).cons ≤ (queue_consume q).prod := by
      simp only [queue_consume]; omega
    rw [drainN, ih (queue_consume q) hc2 hstep]
    unfold contents queue_peek queue_consume
    simp only [hn, hne, if_neg hne]
    rw [List.range_succ_eq_map]
    simp only [List.map_cons, List.map_map]
    congr 1
    have hrange : q.prod - (q.cons + 1) = n := by omega
    rw [hrange]
    apply List.map_congr_left
    intro i _
    simp only [Function.comp_apply]
    have harg : q.cons + 1 + i = q.cons + i.succ := by omega
    rw [harg]

/-- Pushing a whole list appends it to the contents when capacity allows. -/
theorem contents_queue_push_all (vs : List α) (q : event_queue α)
    (hc : q.cons ≤ q.prod) (hroom : q.prod - q.cons + vs.length ≤ q.cap) :
    contents (queue_push_all q vs) = contents q ++ vs := by
  induction vs generalizing q with
  | nil => simp [queue_push_all]
  | cons v vs ih =>
    have hfull : q.prod - q.cons < q.cap := by
      simp only [List.length_cons] at hroom; omega
    have hstep := contents_queue_push q v hc hfull
    show contents (queue_push_all (queue_push q v) vs) = _
    rw [ih (queue_push q v)
      (by simp only [queue_push_prod, queue_push_cons]; omega)
      (by simp only [queue_push_prod, queue_push_cons, queue_push_cap]
          simp only [List.length_cons] at hroom; omega)]
    rw [hstep]
    simp

/-- The consumer index never outruns the producer index under pushes. -/
theorem queue_push_all_cons_le (vs : List α) (q : event_queue α)
    (h : q.cons ≤ q.prod) :
    (queue_push_all q vs).cons ≤ (queue_push_all q vs).prod := by
  induction vs generalizing q with
  | nil => exact h
  | cons v vs ih =>
    exact ih (queue_push q v)
      (by simp only [queue_push_prod, queue_push_cons]; omega)

/-- C1: For any sequence of queue_push calls to an Event Queue not
exceeding its capacity, subsequent repeated queue_peek/consume calls yield
the pushed event records in exactly the order they were pushed (FIFO). -/
theorem queue_fifo (n : Nat) (d : α) (vs : List α) (hlen : vs.length ≤ n) :
    drainAll (queue_push_all (queue_init n d) vs) d = vs := by
  have h0 : (queue_init n d : event_queue α).cons ≤ (queue_init n d : event_queue α).prod :=
    Nat.le_refl 0
  have hcap : (queue_init n d : event_queue α).prod -
      (queue_init n d : event_queue α).cons + vs.length ≤ (queue_init n d : event_queue α).cap := by
    simpa [queue_init] using hlen
  have hpushed := contents_queue_push_all vs (queue_init n d) h0 hcap
  rw [drainAll_eq_contents _ _ (queue_push_all_cons_le vs _ h0), hpushed]
  simp [contents, queue_init]

/-- C8: queue_peek on an empty Event Queue is not an error: it returns an
explicit no-data result and leaves the caller output unwritten. -/
theorem queue_peek_empty (q : event_queue α) (out : α) (h : q.prod = q.cons) :
    queue_peek q out = (out, false) := by
  simp [queue_peek, h]

/-! ## Timed event scheduler -/

/-- Modelled from the spec: the counter modulus of the monotonic
millisecond clock (a free-running 32-bit counter that wraps silently). -/
def wrap : Nat := 2 ^ 32

/-- Modelled from the spec: half the counter range; an unsigned difference
below it counts as elapsed. -/
def half_range : Nat := 2 ^ 31

/-- Modelled from the spec: wraparound-safe deadline comparison — the
deadline is elapsed exactly when the unsigned difference now - deadline,
taken modulo the counter range, is less than half the range. -/
def time_elapsed (deadline now : Nat) : Bool :=
  (now % wrap + (wrap - deadline % wrap)) % wrap < half_range

/-- Modelled from the spec: a Timed Event as configured by
timed_event_init — an identity, and a relative delay in clock ticks; its
one-shot callback is identified by the event identity. -/
structure timed_event where
  id : Nat
  delay : Nat
deriving DecidableEq

/-- An entry of the scheduler pending set: which event, and its absolute
deadline. -/
structure tq_entry where
  id : Nat
  deadline : Nat
deriving DecidableEq

/-- Modelled from the spec: the Timed Scheduler — an ordered collection of
linked Timed Events, ascending by deadline, ties broken stably by link
order. -/
structure timed_queue where
  pending : List tq_entry
deriving DecidableEq

/-- Modelled from the spec: timed_queue_init yields an empty pending set. -/
def timed_queue_init : timed_queue := ⟨[]⟩

/-- Insertion keeping ascending deadlines; an equal deadline goes after
existing entries (stable tie-break by link order). -/
def tq_insert (e : tq_entry) : List tq_entry → List tq_entry
  | [] => [e]
  | x :: xs => if x.deadline ≤ e.deadline then x :: tq_insert e xs else e :: x :: xs

/-- Modelled from the spec: timed_queue_link computes
deadline = now + delay (32-bit wrapping) and inserts the event into the
deadline-ordered pending set. -/
def timed_queue_link (tq : timed_queue) (now : Nat) (ev : timed_event) : timed_queue :=
  ⟨tq_insert ⟨ev.id, (now + ev.delay) % wrap⟩ tq.pending⟩

/-- Modelled from the spec: timed_queue_unlink removes the event from the
pending set if present and is a no-op otherwise; it never invokes a
callback. -/
def timed_queue_unlink (tq : timed_queue) (ev : timed_event) : timed_queue :=
  ⟨tq.pending.filter (fun e => !(e.id == ev.id))⟩

/-- Modelled from the spec: one scheduler poll — compare the earliest
deadline against now with the wraparound-safe comparison; if elapsed,
remove that entry (one-shot) and report it so its callback is invoked
exactly once; otherwise report nothing. -/
def timed_queue_poll (tq : timed_queue) (now : Nat) : timed_queue × Option tq_entry :=
  match tq.pending with
  | [] => (tq, none)
  | e :: rest => if time_elapsed e.deadline now then (⟨rest⟩, some e) else (tq, none)

/-- Whether a Timed Event is currently linked in the scheduler. -/
def tq_linked (tq : timed_queue) (ev : timed_event) : Bool :=
  tq.pending.any (fun e => e.id == ev.id)

/-- Repeated polling at a sequence of times; returns the final scheduler
state and the entries fired (whose callbacks were invoked), in order. -/
def poll_run : timed_queue → List Nat → timed_queue × List tq_entry
  | tq, [] => (tq, [])
  | tq, t :: ts =>
    match timed_queue_poll tq t with
    | (tq2, some e) => ((poll_run tq2 ts).1, e :: (poll_run tq2 ts).2)
    | (tq2, none) => poll_run tq2 ts

/-- Polling only removes entries: an event absent from the pending set is
still absent after a poll, and is never the fired entry. -/
theorem timed_queue_poll_absent (tq : timed_queue) (t : Nat) (i : Nat)
    (h : tq.pending.all (fun e => !(e.id == i)) = true) :
    ((timed_queue_poll tq t).1.pending.all (fun e => !(e.id == i)) = true) ∧
      (∀ e, (timed_queue_poll tq t).2 = some e → e.id ≠ i) := by
  unfold timed_queue_poll
  match htq : tq.pending with
  | [] =>
    refine ⟨by simp [htq], ?_⟩
    intro e he
    simp at he
  | x :: rest =>
    rw [htq] at h
    simp only [List.all_cons, Bool.and_eq_true] at h
    by_cases hel : time_elapsed x.deadline t
    · refine ⟨by simpa [hel] using h.2, ?_⟩
      intro e he
      simp only [hel, if_true] at he
      cases he
      simpa using h.1
    · refine ⟨by simp [hel, htq, List.all_cons, h.1, h.2], ?_⟩
      intro e he
      simp [hel] at he

/-- Across any sequence of polls, an event absent from the pending set
never fires. -/
theorem poll_run_absent (ts : List Nat) (tq : timed_queue) (i : Nat)
    (h : tq.pending.all (fun e => !(e.id == i)) = true) :
    (poll_run tq ts).2.all (fun e => !(e.id == i)) = true := by
  induction ts generalizing tq with
  | nil => simp [poll_run]
  | cons t ts ih =>
    have habs := timed_queue_poll_absent tq t i h
    unfold poll_run
    match hp : timed_queue_poll tq t with
    | (tq2, some e) =>
      simp only [List.all_cons, Bool.and_eq_true]
      rw [hp] at habs
      refine ⟨by simpa using habs.2 e rfl, ih tq2 habs.1⟩
    | (tq2, none) =>
      rw [hp] at habs
      exact ih tq2 habs.1

/-- Unlinking leaves no entry of the event behind. -/
theorem timed_queue_unlink_absent (tq : timed_queue) (ev : timed_event) :
    (timed_queue_unlink tq ev).pending.all (fun e => !(e.id == ev.id)) = true := by
  simp only [timed_queue_unlink, List.all_filter]
  exact List.all_eq_true.mpr (fun e _ => by simp)

/-- C4: timed_queue_link followed by timed_queue_unlink before the
deadline elapses results in the event callback never being invoked,
regardless of how much time subsequently passes: across any sequence of
later polls no fired entry is the unlinked event, and the event stays
unlinked. -/
theorem link_unlink_never_fires (tq : timed_queue) (t : Nat) (ev : timed_event)
    (ts : List Nat) :
    ((poll_run (timed_queue_unlink (timed_queue_link tq t ev) ev) ts).2.all
        (fun e => !(e.id == ev.id)) = true) ∧
      tq_linked (poll_run (timed_queue_unlink (timed_queue_link tq t ev) ev) ts).1 ev = false := by
  have habs := timed_queue_unlink_absent (timed_queue_link tq t ev) ev
  constructor
  · exact poll_run_absent ts _ ev.id habs
  · have : ∀ (us : List Nat) (q : timed_queue),
        q.pending.all (fun e => !(e.id == ev.id)) = true →
        tq_linked (poll_run q us).1 ev = false := by
      intro us
      induction us with
      | nil =>
        intro q hq
        simp only [poll_run, tq_linked]
        simp only [List.all_eq_true] at hq
        simp only [List.any_eq_false]
        intro e he
        simpa using hq e he
      | cons u us ih =>
        intro q hq
        have hstep := timed_queue_poll_absent q u ev.id hq
        unfold poll_run
        match hp : timed_queue_poll q u with
        | (q2, some e) =>
          rw [hp] at hstep
          exact ih q2 hstep.1
        | (q2, none) =>
          rw [hp] at hstep
          exact ih q2 hstep.1
    exact this ts _ habs

/-- C5: timed_queue_unlink on an event that is not currently linked
changes no state and triggers no callback (by definition unlink reports
nothing to invoke). -/
theorem unlink_not_linked_noop (tq : timed_queue) (ev : timed_event)
    (h : tq_linked tq ev = false) :
    timed_queue_unlink tq ev = tq := by
  unfold timed_queue_unlink
  have : tq.pending.filter (fun e => !(e.id == ev.id)) = tq.pending := by
    apply List.filter_eq_self.mpr
    intro e he
    simp only [tq_linked, List.any_eq_false] at h
    simpa using h e he
  rw [this]

/-- Witness for C5 at a concrete scheduler state. -/
theorem unlink_not_linked_noop_witness :
    tq_linked ⟨[⟨1, 100⟩]⟩ ⟨0, 250⟩ = false ∧
      timed_queue_unlink ⟨[⟨1, 100⟩]⟩ ⟨0, 250⟩ = ⟨[⟨1, 100⟩]⟩ :=
  ⟨by decide, unlink_not_linked_noop ⟨[⟨1, 100⟩]⟩ ⟨0, 250⟩ (by decide)⟩

/-- The wraparound-safe comparison reports not-elapsed while the deadline
is still ahead by at most half the range. -/
theorem time_elapsed_false (dl now : Nat) (h1 : now < dl) (h2 : dl ≤ now + half_range) :
    time_elapsed (dl % wrap) now = false := by
  unfold time_elapsed wrap half_range
  unfold half_range at h2
  simp only [Nat.mod_mod_of_dvd _ (dvd_refl _), decide_eq_false_iff_not, not_lt]
  omega

/-- The wraparound-safe comparison reports elapsed once the deadline has
passed by less than half the range. -/
theorem time_elapsed_true (dl now : Nat) (h1 : dl ≤ now) (h2 : now < dl + half_range) :
    time_elapsed (dl % wrap) now = true := by
  unfold time_elapsed wrap half_range
  unfold half_range at h2
  simp only [Nat.mod_mod_of_dvd _ (dvd_refl _), decide_eq_true_eq]
  omega

/-- C6: the scheduler poll uses the wraparound-safe comparison, so an
event linked at clock value t (even just below the counter maximum) with
delay d below half the range fires at a poll observing elapsed time e
(clock value (t + e) mod range, i.e. after wrapping to zero) exactly when
e has reached d. -/
theorem poll_wraparound (t d e i : Nat) (hd : d < half_range) (he : e < half_range) :
    ((timed_queue_poll (timed_queue_link timed_queue_init t ⟨i, d⟩) ((t + e) % wrap)).2).isSome
      = decide (d ≤ e) := by
  show ((timed_queue_poll ⟨[⟨i, (t + d) % wrap⟩]⟩ ((t + e) % wrap)).2).isSome = decide (d ≤ e)
  unfold timed_queue_poll
  simp only
  have hmod : time_elapsed ((t + d) % wrap) ((t + e) % wrap)
      = time_elapsed ((t + d) % wrap) (t + e) := by
    unfold time_elapsed
    rw [Nat.mod_mod_of_dvd _ (dvd_refl _)]
  by_cases hle : d ≤ e
  · have : time_elapsed ((t + d) % wrap) ((t + e) % wrap) = true := by
      rw [hmod]
      exact time_elapsed_true (t + d) (t + e) (by omega) (by unfold half_range at *; omega)
    simp [this, hle]
  · have : time_elapsed ((t + d) % wrap) ((t + e) % wrap) = false := by
      rw [hmod]
      exact time_elapsed_false (t + d) (t + e) (by omega) (by unfold half_range at *; omega)
    simp [this, hle]

/-! ## Main loop and the fair scheduling strategy -/

/-- Modelled from the spec: the Main Loop registry — an ordered set of
registered pollable sources (identified here by handles), kept in
registration order. -/
structure main_loop where
  sources : List Nat

/-- Modelled from the spec: main_loop_add_queue registers a pollable
source; it stays registered until the loop ends. -/
def main_loop_add_queue (loop : main_loop) (src : Nat) : main_loop :=
  ⟨loop.sources ++ [src]⟩

/-- Modelled from the spec: the fare (fair) strategy services every ready
source once per pass, in round-robin (registration) order; the result is
the order in which sources are dispatched during one pass. -/
def main_loop_strategy_fare (loop : main_loop) (ready : Nat → Bool) : List Nat :=
  loop.sources.filter ready

/-- Repeated dispatch passes under the fare strategy, one readiness
snapshot per pass; the result is the full service order. -/
def main_loop_run_fare (loop : main_loop) : List (Nat → Bool) → List Nat
  | [] => []
  | r :: rs => main_loop_strategy_fare loop r ++ main_loop_run_fare loop rs

/-- A ready source is serviced exactly once in a fare pass. -/
theorem fare_pass_count (loop : main_loop) (ready : Nat → Bool) (a : Nat)
    (hd : loop.sources.Nodup) (ha : a ∈ loop.sources) (hr : ready a = true) :
    (main_loop_strategy_fare loop ready).count a = 1 := by
  unfold main_loop_strategy_fare
  rw [List.count_filter hr]
  exact List.count_eq_one_of_mem hd ha

/-- C7: under the fare strategy, two registered sources that are both
ready on every pass are each serviced exactly once per pass, in bounded
alternation; over any run of passes each is serviced once per pass, so
neither is starved. -/
theorem fare_no_starvation (loop : main_loop) (a b : Nat) (rs : List (Nat → Bool))
    (hd : loop.sources.Nodup) (ha : a ∈ loop.sources) (hb : b ∈ loop.sources)
    (hra : ∀ r ∈ rs, r a = true) (hrb : ∀ r ∈ rs, r b = true) :
    (main_loop_run_fare loop rs).count a = rs.length ∧
      (main_loop_run_fare loop rs).count b = rs.length := by
  induction rs with
  | nil => simp [main_loop_run_fare]
  | cons r rs ih =>
    have hih := ih (fun s hs => hra s (List.mem_cons_of_mem r hs))
      (fun s hs => hrb s (List.mem_cons_of_mem r hs))
    unfold main_loop_run_fare
    rw [List.count_append, List.count_append]
    rw [fare_pass_count loop r a hd ha (hra r (List.mem_cons_self r rs)),
      fare_pass_count loop r b hd hb (hrb r (List.mem_cons_self r rs)),
      hih.1, hih.2]
    simp only [List.length_cons]
    omega

/-! ## The msp430_timed_blink demo (translated from main.c) -/

/-- Translated from main.c: the button event kind. -/
inductive button_event_t where
  | button_invalid
  | button_0
deriving DecidableEq

/-- Translated from main.c: the led event kind. -/
inductive led_event_t where
  | led_invalid
  | led_0
  | led_1
deriving DecidableEq

/-- Translated from main.c: time_stream.event, configured by
timed_event_init(&time_stream.event, 250, delayed_handler); its callback
is delayed_handler, its relative delay 250 time units.  It is the only
timed event the demo ever links. -/
def time_stream_event : timed_event := ⟨0, 250⟩

/-- The global demo state: the button_accumulator counter (a uint8), the
button stream queue (capacity 8), the timed queue of time_stream, and the
led stream queue (capacity 8). -/
structure demo_state where
  button_accumulator : Nat
  button_q : event_queue button_event_t
  time_q : timed_queue
  led_q : event_queue led_event_t

/-- Translated from main.c: single_pressed pushes a led_0 event into the
led stream queue. -/
def single_pressed (s : demo_state) : demo_state :=
  { s with led_q := queue_push s.led_q led_event_t.led_0 }

/-- Translated from main.c: double_pressed pushes a led_1 event into the
led stream queue. -/
def double_pressed (s : demo_state) : demo_state :=
  { s with led_q := queue_push s.led_q led_event_t.led_1 }

/-- Translated from main.c: button_stream_handler peeks the button queue,
then either (accumulator zero) increments the accumulator modulo the uint8
range and links the timeout event, or (accumulator nonzero) zeroes the
accumulator, unlinks the timeout event and signals a double press; it
returns status 0.  The peeked event value does not influence control
flow. -/
def button_stream_handler (now : Nat) (s : demo_state) : demo_state × Int :=
  let _event := (queue_peek s.button_q button_event_t.button_invalid).1
  if s.button_accumulator = 0 then
    ({ s with
        button_accumulator := (s.button_accumulator + 1) % 256
        time_q := timed_queue_link s.time_q now time_stream_event }, 0)
  else
    (double_pressed
      { s with
          button_accumulator := 0
          time_q := timed_queue_unlink s.time_q time_stream_event }, 0)

/-- Translated from main.c: delayed_handler zeroes the accumulator and
signals a single press. -/
def delayed_handler (s : demo_state) : demo_state :=
  single_pressed { s with button_accumulator := 0 }

/-- An externally visible step of the demo: a button press at clock value
t (the interrupt pushes button_0 and the main loop dispatches
button_stream_handler), or a scheduler poll at clock value t (the main
loop polls the timed queue; a fired entry has delayed_handler as its
callback, time_stream.event being the only event ever linked). -/
inductive demo_input where
  | press (t : Nat)
  | poll (t : Nat)

/-- One demo step. -/
def demo_step (s : demo_state) : demo_input → demo_state
  | .press t =>
    (button_stream_handler t
      { s with button_q := queue_push s.button_q button_event_t.button_0 }).1
  | .poll t =>
    match timed_queue_poll s.time_q t with
    | (tq2, some _) => delayed_handler { s with time_q := tq2 }
    | (tq2, none) => { s with time_q := tq2 }

/-- Running the demo over a sequence of inputs. -/
def demo_run (s : demo_state) : List demo_input → demo_state
  | [] => s
  | i :: is => demo_run (demo_step s i) is

/-- Translated from main.c: the state after main initialisation —
accumulator zero, queues of capacity 8, timed queue empty. -/
def demo_init : demo_state :=
  { button_accumulator := 0
  , button_q := queue_init 8 button_event_t.button_invalid
  , time_q := timed_queue_init
  , led_q := queue_init 8 led_event_t.led_invalid }

theorem demo_run_append (s : demo_state) (xs ys : List demo_input) :
    demo_run s (xs ++ ys) = demo_run (demo_run s xs) ys := by
  induction xs generalizing s with
  | nil => rfl
  | cons x xs ih => simp [demo_run, ih]

/-- A poll of an empty timed queue changes nothing. -/
theorem demo_step_poll_empty (s : demo_state) (t : Nat) (h : s.time_q.pending = []) :
    demo_step s (demo_input.poll t) = s := by
  unfold demo_step timed_queue_poll
  rw [h]

/-- A poll before the deadline of the only pending entry changes nothing. -/
theorem demo_step_poll_not_elapsed (s : demo_state) (t i dl : Nat)
    (h : s.time_q.pending = [⟨i, dl⟩]) (hne : time_elapsed dl t = false) :
    demo_step s (demo_input.poll t) = s := by
  unfold demo_step timed_queue_poll
  rw [h]
  simp only [hne, Bool.false_eq_true, if_false]

/-- Any run made only of polls of an empty timed queue changes nothing. -/
theorem demo_run_polls_empty (ts : List Nat) (s : demo_state)
    (h : s.time_q.pending = []) :
    demo_run s (ts.map demo_input.poll) = s := by
  induction ts with
  | nil => rfl
  | cons t ts ih =>
    simp only [List.map_cons, demo_run, demo_step_poll_empty s t h]
    exact ih

theorem demo_run_cons (s : demo_state) (i : demo_input) (is : List demo_input) :
    demo_run s (i :: is) = demo_run (demo_step s i) is := rfl

/-- Any run made only of polls before the deadline of the single pending
entry changes nothing. -/
theorem demo_run_polls_singleton (ts : List Nat) (s : demo_state) (i dl : Nat)
    (h : s.time_q.pending = [⟨i, dl⟩])
    (hall : ∀ t ∈ ts, time_elapsed dl t = false) :
    demo_run s (ts.map demo_input.poll) = s := by
  induction ts with
  | nil => rfl
  | cons t ts ih =>
    simp only [List.map_cons, demo_run_cons,
      demo_step_poll_not_elapsed s t i dl h (hall t (List.mem_cons_self t ts))]
    exact ih (fun u hu => hall u (List.mem_cons_of_mem t hu))

/-- C2: two button events dispatched to button_stream_handler separated by
less than the 250 tick window, with any scheduler polls in between (at
clock values within the interval) and any polls afterwards, produce
exactly one double-press classification (a single led_1 record in the led
stream, pushed by double_pressed), zero single-press classifications (no
led_0 record), and leave the timeout event unlinked so it can never
fire. -/
theorem double_press_exactly_one_double (t1 t2 : Nat) (us vs : List Nat) (s : demo_state)
    (hs : s = demo_run demo_init
      (demo_input.press t1 ::
        (us.map demo_input.poll ++ demo_input.press t2 :: vs.map demo_input.poll)))
    (hus : ∀ u ∈ us, t1 ≤ u ∧ u ≤ t2) (hwin : t2 < t1 + 250) :
    contents s.led_q = [led_event_t.led_1] ∧
      s.button_accumulator = 0 ∧
      tq_linked s.time_q time_stream_event = false := by
  subst hs
  have h1 : demo_step demo_init (demo_input.press t1)
      = { button_accumulator := 1
        , button_q := queue_push (queue_init 8 button_event_t.button_invalid)
            button_event_t.button_0
        , time_q := ⟨[⟨0, (t1 + 250) % wrap⟩]⟩
        , led_q := queue_init 8 led_event_t.led_invalid } := rfl
  have hall : ∀ u ∈ us, time_elapsed ((t1 + 250) % wrap) u = false := by
    intro u hu
    obtain ⟨hu1, hu2⟩ := hus u hu
    exact time_elapsed_false (t1 + 250) u (by omega) (by unfold half_range; omega)
  rw [demo_run_cons, h1, demo_run_append,
    demo_run_polls_singleton us _ 0 ((t1 + 250) % wrap) rfl hall]
  have h2 : demo_step
      { button_accumulator := 1
      , button_q := queue_push (queue_init 8 button_event_t.button_invalid)
          button_event_t.button_0
      , time_q := ⟨[⟨0, (t1 + 250) % wrap⟩]⟩
      , led_q := queue_init 8 led_event_t.led_invalid } (demo_input.press t2)
      = { button_accumulator := 0
        , button_q := queue_push (queue_push (queue_init 8 button_event_t.button_invalid)
            button_event_t.button_0) button_event_t.button_0
        , time_q := ⟨[]⟩
        , led_q := queue_push (queue_init 8 led_event_t.led_invalid) led_event_t.led_1 } := rfl
  rw [demo_run_cons, h2, demo_run_polls_empty vs _ rfl]
  refine ⟨by decide, rfl, rfl⟩

/-- C3: a single button event dispatched to button_stream_handler,
followed by no second button event, with any polls strictly inside the 250
tick window, then a poll observing the deadline elapsed (within half the
counter range), then any further polls, produces exactly one single-press
classification (a single led_0 record in the led stream, pushed by
single_pressed via delayed_handler) — once and only once — and leaves the
timeout event unlinked. -/
theorem single_press_exactly_one_single (t1 v : Nat) (us vs : List Nat) (s : demo_state)
    (hs : s = demo_run demo_init
      (demo_input.press t1 ::
        (us.map demo_input.poll ++ demo_input.poll v :: vs.map demo_input.poll)))
    (hus : ∀ u ∈ us, t1 ≤ u ∧ u < t1 + 250)
    (hv1 : t1 + 250 ≤ v) (hv2 : v < t1 + 250 + half_range) :
    contents s.led_q = [led_event_t.led_0] ∧
      s.button_accumulator = 0 ∧
      tq_linked s.time_q time_stream_event = false := by
  subst hs
  have h1 : demo_step demo_init (demo_input.press t1)
      = { button_accumulator := 1
        , button_q := queue_push (queue_init 8 button_event_t.button_invalid)
            button_event_t.button_0
        , time_q := ⟨[⟨0, (t1 + 250) % wrap⟩]⟩
        , led_q := queue_init 8 led_event_t.led_invalid } := rfl
  have hall : ∀ u ∈ us, time_elapsed ((t1 + 250) % wrap) u = false := by
    intro u hu
    obtain ⟨hu1, hu2⟩ := hus u hu
    exact time_elapsed_false (t1 + 250) u (by omega) (by unfold half_range; omega)
  rw [demo_run_cons, h1, demo_run_append,
    demo_run_polls_singleton us _ 0 ((t1 + 250) % wrap) rfl hall]
  have hel : time_elapsed ((t1 + 250) % wrap) v = true :=
    time_elapsed_true (t1 + 250) v (by omega) (by omega)
  have h2 : demo_step
      { button_accumulator := 1
      , button_q := queue_push (queue_init 8 button_event_t.button_invalid)
          button_event_t.button_0
      , time_q := ⟨[⟨0, (t1 + 250) % wrap⟩]⟩
      , led_q := queue_init 8 led_event_t.led_invalid } (demo_input.poll v)
      = { button_accumulator := 0
        , button_q := queue_push (queue_init 8 button_event_t.button_invalid)
            button_event_t.button_0
        , time_q := ⟨[]⟩
        , led_q := queue_push (queue_init 8 led_event_t.led_invalid) led_event_t.led_0 } := by
    unfold demo_step timed_queue_poll
    simp only [hel, if_true]
    rfl
  rw [demo_run_cons, h2, demo_run_polls_empty vs _ rfl]
  refine ⟨by decide, rfl, rfl⟩

/-- The invariant of C9: the accumulator is zero or one, and
time_stream.event is linked in the timed queue exactly when it is one. -/
def demo_inv (s : demo_state) : Prop :=
  s.button_accumulator ≤ 1 ∧
    (tq_linked s.time_q time_stream_event = true ↔ s.button_accumulator = 1)

/-- The inductive strengthening of the C9 invariant: the pending set is
empty when the accumulator is zero, and holds exactly the demo timeout
entry when it is one. -/
def demo_strong_inv (s : demo_state) : Prop :=
  (s.button_accumulator = 0 ∧ s.time_q.pending = []) ∨
    (s.button_accumulator = 1 ∧ ∃ dl, s.time_q.pending = [⟨0, dl⟩])

theorem demo_strong_inv_step (s : demo_state) (i : demo_input)
    (h : demo_strong_inv s) : demo_strong_inv (demo_step s i) := by
  cases i with
  | press t =>
    cases h with
    | inl h0 =>
      obtain ⟨hacc, hpend⟩ := h0
      have htq0 : s.time_q = ⟨[]⟩ := by
        cases htq2 : s.time_q
        simp_all
      unfold demo_step button_stream_handler
      simp only [hacc, if_pos rfl]
      right
      refine ⟨rfl, (t + 250) % wrap, ?_⟩
      simp [htq0, timed_queue_link, time_stream_event, tq_insert]
    | inr h1 =>
      obtain ⟨hacc, dl, hpend⟩ := h1
      have htq0 : s.time_q = ⟨[⟨0, dl⟩]⟩ := by
        cases htq2 : s.time_q
        simp_all
      unfold demo_step button_stream_handler
      simp only [hacc]
      simp only [Nat.one_ne_zero, if_false]
      left
      refine ⟨rfl, ?_⟩
      simp [double_pressed, htq0, timed_queue_unlink, time_stream_event]
  | poll t =>
    cases h with
    | inl h0 =>
      obtain ⟨hacc, hpend⟩ := h0
      rw [demo_step_poll_empty s t hpend]
      exact Or.inl ⟨hacc, hpend⟩
    | inr h1 =>
      obtain ⟨hacc, dl, hpend⟩ := h1
      by_cases hel : time_elapsed dl t = true
      · have htq0 : s.time_q = ⟨[⟨0, dl⟩]⟩ := by
          cases htq2 : s.time_q
          simp_all
        unfold demo_step timed_queue_poll
        rw [hpend]
        simp only [hel, if_true]
        exact Or.inl ⟨rfl, rfl⟩
      · rw [demo_step_poll_not_elapsed s t 0 dl hpend (by simpa using hel)]
        exact Or.inr ⟨hacc, dl, hpend⟩

theorem demo_strong_inv_run (is : List demo_input) (s : demo_state)
    (h : demo_strong_inv s) : demo_strong_inv (demo_run s is) := by
  induction is generalizing s with
  | nil => exact h
  | cons i is ih => exact ih (demo_step s i) (demo_strong_inv_step s i h)

/-- C9: in every state the demo reaches from initialisation through any
sequence of handler dispatches and scheduler polls, button_accumulator is
zero or one and time_stream.event is linked in the timed queue exactly
when it is one; initialisation establishes the invariant and every step
preserves it. -/
theorem demo_invariant (is : List demo_input) :
    demo_inv (demo_run demo_init is) := by
  have hstrong := demo_strong_inv_run is demo_init (Or.inl ⟨rfl, rfl⟩)
  cases hstrong with
  | inl h0 =>
    obtain ⟨hacc, hpend⟩ := h0
    refine ⟨by omega, ?_⟩
    rw [hacc]
    simp [tq_linked, hpend]
  | inr h1 =>
    obtain ⟨hacc, dl, hpend⟩ := h1
    refine ⟨by omega, ?_⟩
    rw [hacc]
    simp [tq_linked, hpend, time_stream_event]

/-! ## The led stream handler (translated from main.c) -/

/-- Translated from main.c: LED0 is BIT0 of the P1OUT register. -/
def LED0 : Nat := 1

/-- Translated from main.c: LED1 is BIT6 of the P1OUT register. -/
def LED1 : Nat := 64

/-- Translated from main.c: led_stream_handler initialises a local event
to led_invalid, peeks the led stream queue into it, toggles LED0 of P1OUT
when the event is led_0, toggles LED1 when it is led_1, and returns status
0.  Its only effect is the returned P1OUT value. -/
def led_stream_handler (p1out : Nat) (q : event_queue led_event_t) : Nat × Int :=
  let event := (queue_peek q led_event_t.led_invalid).1
  if event = led_event_t.led_0 then (p1out ^^^ LED0, 0)
  else if event = led_event_t.led_1 then (p1out ^^^ LED1, 0)
  else (p1out, 0)

/-- C10: led_stream_handler modifies at most the LED0 (bit 0) and LED1
(bit 6) bits of P1OUT and no other program state: it toggles LED0 exactly
when the peeked event is led_0, toggles LED1 exactly when it is led_1,
leaves P1OUT entirely unchanged when the queue was empty (the local event
stays led_invalid), and always returns 0. -/
theorem led_stream_handler_frame (p1out : Nat) (q : event_queue led_event_t) :
    (led_stream_handler p1out q).2 = 0 ∧
      (∀ i, i ≠ 0 → i ≠ 6 →
        (led_stream_handler p1out q).1.testBit i = p1out.testBit i) ∧
      (((led_stream_handler p1out q).1.testBit 0 ≠ p1out.testBit 0) ↔
        (queue_peek q led_event_t.led_invalid).1 = led_event_t.led_0) ∧
      (((led_stream_handler p1out q).1.testBit 6 ≠ p1out.testBit 6) ↔
        (queue_peek q led_event_t.led_invalid).1 = led_event_t.led_1) ∧
      (q.prod = q.cons → (led_stream_handler p1out q).1 = p1out) := by
  have hbit0 : ∀ (p : Nat), (p ^^^ LED0).testBit 0 = !(p.testBit 0) := by
    intro p
    rw [LED0, Nat.testBit_xor]
    simp
  have hbit0_ne : ∀ (p : Nat) (i : Nat), i ≠ 0 → (p ^^^ LED0).testBit i = p.testBit i := by
    intro p i hi
    rw [LED0, Nat.testBit_xor, show (1 : Nat) = 2 ^ 0 from rfl,
      Nat.testBit_two_pow_of_ne (by omega)]
    simp
  have hbit6 : ∀ (p : Nat), (p ^^^ LED1).testBit 6 = !(p.testBit 6) := by
    intro p
    rw [LED1, Nat.testBit_xor, show (64 : Nat) = 2 ^ 6 from rfl,
      Nat.testBit_two_pow_self]
    simp
  have hbit6_ne : ∀ (p : Nat) (i : Nat), i ≠ 6 → (p ^^^ LED1).testBit i = p.testBit i := by
    intro p i hi
    rw [LED1, Nat.testBit_xor, show (64 : Nat) = 2 ^ 6 from rfl,
      Nat.testBit_two_pow_of_ne (by omega)]
    simp
  cases hev : (queue_peek q led_event_t.led_invalid).1 with
  | led_invalid =>
    have hred : led_stream_handler p1out q = (p1out, 0) := by
      unfold led_stream_handler
      rw [hev]
      simp
    rw [hred]
    exact ⟨rfl, fun i _ _ => rfl, by simp, by simp, fun _ => rfl⟩
  | led_0 =>
    have hred : led_stream_handler p1out q = (p1out ^^^ LED0, 0) := by
      unfold led_stream_handler
      rw [hev]
      simp
    rw [hred]
    refine ⟨rfl, ?_, ?_, ?_, ?_⟩
    · intro i hi0 _
      exact hbit0_ne p1out i hi0
    · rw [hbit0 p1out]
      constructor
      · intro _
        rfl
      · intro _
        cases p1out.testBit 0 <;> simp
    · rw [hbit0_ne p1out 6 (by omega)]
      simp
    · intro hq
      have := queue_peek_empty q led_event_t.led_invalid hq
      rw [this] at hev
      cases hev
  | led_1 =>
    have hred : led_stream_handler p1out q = (p1out ^^^ LED1, 0) := by
      unfold led_stream_handler
      rw [hev]
      simp
    rw [hred]
    refine ⟨rfl, ?_, ?_, ?_, ?_⟩
    · intro i _ hi6
      exact hbit6_ne p1out i hi6
    · rw [hbit6_ne p1out 0 (by omega)]
      simp
    · rw [hbit6 p1out]
      constructor
      · intro _
        rfl
      · intro _
        cases p1out.testBit 6 <;> simp
    · intro hq
      have := queue_peek_empty q led_event_t.led_invalid hq
      rw [this] at hev
      cases hev

/-! ## Concrete witnesses -/

/-- Witness for C1: three records pushed into a capacity-8 queue drain in
push order. -/
theorem queue_fifo_witness :
    ([led_event_t.led_0, led_event_t.led_1, led_event_t.led_0].length ≤ 8) ∧
      drainAll (queue_push_all (queue_init 8 led_event_t.led_invalid)
          [led_event_t.led_0, led_event_t.led_1, led_event_t.led_0]) led_event_t.led_invalid
        = [led_event_t.led_0, led_event_t.led_1, led_event_t.led_0] :=
  ⟨by decide, queue_fifo 8 led_event_t.led_invalid _ (by decide)⟩

/-- Witness for C8: peeking a freshly initialised queue reports no data
and returns the output argument unchanged. -/
theorem queue_peek_empty_witness :
    (queue_init 4 led_event_t.led_invalid).prod = (queue_init 4 led_event_t.led_invalid).cons ∧
      queue_peek (queue_init 4 led_event_t.led_invalid) led_event_t.led_0
        = (led_event_t.led_0, false) :=
  ⟨rfl, queue_peek_empty (queue_init 4 led_event_t.led_invalid) led_event_t.led_0 rfl⟩

/-- Witness for C6: an event linked 100 ticks before the counter maximum
with delay 250 fires at a poll taken 250 ticks later, after the counter
has wrapped past zero. -/
theorem poll_wraparound_witness :
    250 < half_range ∧
      ((timed_queue_poll (timed_queue_link timed_queue_init (2 ^ 32 - 100) ⟨0, 250⟩)
          ((2 ^ 32 - 100 + 250) % wrap)).2).isSome = decide (250 ≤ 250) :=
  ⟨by decide, poll_wraparound (2 ^ 32 - 100) 250 250 0 (by decide) (by decide)⟩

/-- Witness for C7: two sources, three passes with both always ready —
each is serviced three times. -/
theorem fare_no_starvation_witness :
    (main_loop_run_fare ⟨[0, 1]⟩
        [fun _ => true, fun _ => true, fun _ => true]).count 0 = 3 ∧
      (main_loop_run_fare ⟨[0, 1]⟩
        [fun _ => true, fun _ => true, fun _ => true]).count 1 = 3 :=
  fare_no_starvation ⟨[0, 1]⟩ 0 1 [fun _ => true, fun _ => true, fun _ => true]
    (by decide) (by decide) (by decide)
    (fun r hr => by fin_cases hr <;> rfl)
    (fun r hr => by fin_cases hr <;> rfl)

/-- Witness for C2: presses at clock 1000 and 1200 (within the 250 tick
window), with a poll at 1100 in between and one at 5000 afterwards, leave
exactly one led_1 record. -/
theorem double_press_exactly_one_double_witness :
    contents (demo_run demo_init
        (demo_input.press 1000 ::
          ([1100].map demo_input.poll ++
            demo_input.press 1200 :: [5000].map demo_input.poll))).led_q
      = [led_event_t.led_1] :=
  (double_press_exactly_one_double 1000 1200 [1100] [5000] _ rfl
    (by decide) (by decide)).1

/-- Witness for C3: a press at clock 1000, a poll at 1100 inside the
window, the elapsed poll at 1300 and a later poll at 2000 leave exactly
one led_0 record. -/
theorem single_press_exactly_one_single_witness :
    contents (demo_run demo_init
        (demo_input.press 1000 ::
          ([1100].map demo_input.poll ++
            demo_input.poll 1300 :: [2000].map demo_input.poll))).led_q
      = [led_event_t.led_0] :=
  (single_press_exactly_one_single 1000 1300 [1100] [2000] _ rfl
    (by decide) (by decide) (by decide)).1

/-- Witness for C10: with P1OUT = 255 and a led_0 event pending, bit 3 of
P1OUT is untouched by the handler. -/
theorem led_stream_handler_frame_witness :
    (led_stream_handler 255
        (queue_push (queue_init 8 led_event_t.led_invalid) led_event_t.led_0)).1.testBit 3
      = (255 : Nat).testBit 3 :=
  (led_stream_handler_frame 255
      (queue_push (queue_init 8 led_event_t.led_invalid) led_event_t.led_0)).2.1
    3 (by decide) (by decide)

end Reacto
